import Mathlib

/-!
Shallow embedding of the durable step-function execution engine of
`inngest-js` — the method `InngestFunction.runFn` together with the state it
threads through the step tools — and proofs of the specification's claims
about it.

Machine integers do not occur in this core; positions are plain array
indices, modelled as `Nat` (a JavaScript out-of-range or fractional index
reads as `undefined`, modelled by `Option` lookups).  Fallible code returns
`Except`.
-/

set_option linter.unusedVariables false

/-- A structured, transportable form of a thrown error, as produced by the
error transport codec: name (the type discriminator) and message are kept. -/
structure SerializedError where
  name : String
  message : String
deriving DecidableEq, Repr

/-- A thrown JavaScript error value.  `serializable` records whether the
error codec can serialize it without itself throwing (the codec may throw on
exotic values, which is the degraded path of the spec's codec contract). -/
structure JsError where
  name : String
  message : String
  serializable : Bool
deriving DecidableEq, Repr

/-- JavaScript values, as far as the engine inspects them: `undefined` is
distinguished from `null`, and error-shaped values appear both raw
(`errObj`) and serialized (`serr`). -/
inductive JsVal : Type where
  | undef
  | null
  | bool (b : Bool)
  | num (n : Int)
  | str (s : String)
  | serr (e : SerializedError)
  | errObj (e : JsError)
deriving DecidableEq, Repr

/-- The settlement state of one step node's pending value (a promise):
still pending, resolved with a value, or rejected with an error value. -/
inductive OpStatus : Type where
  | pending
  | resolvedW (v : JsVal)
  | rejectedW (e : JsVal)
deriving DecidableEq, Repr

/-- Modelled from the spec: one historical step record of the incoming op
stack (`IncomingOp` of `src/types.ts`, which is not among the sources).  Per
the spec's external interface: `{positionPath: int[], run?: bool,
value?: any, error?: SerializedError}`; the source reads the fields
`opPosition`, `run`, `data` and `error`. -/
structure IncomingOp where
  opPosition : List Nat
  run : Bool
  data : Option JsVal
  error : Option JsVal
deriving DecidableEq, Repr

/-- Modelled from the spec: one discovered op reported back to the
orchestrator (`OutgoingOp` of `src/types.ts`, which is not among the
sources): kind, identifier, name, options, run-eligibility and position
path.  `run = false` models the absent `run` key. -/
structure OutgoingOp where
  op : String
  run : Bool
  id : String
  name : String
  opts : JsVal
  opPosition : List Nat
deriving DecidableEq, Repr

/-- Modelled from the spec: an op-tree node as created by the step handle
registry (`TickOp` of `src/components/InngestStepTools.ts`, which is not
among the sources).  A node carries its kind tag `op`, identifier, name,
options, an optional executable thunk `fn` (a thunk either resolves with a
value or throws an error), the settlement state of its pending value, the
steps the user code will register once this node's value is resolved
(`children`, the attached continuation's registrations), and the ordered
child nodes registered so far (`tickOps`). -/
inductive TickOp : Type where
  | mk (op : String) (id : String) (name : String) (opts : JsVal)
      (fn : Option (Except JsError JsVal)) (status : OpStatus)
      (children : List TickOp) (tickOps : List TickOp)
deriving Repr

def TickOp.op : TickOp → String
  | .mk v _ _ _ _ _ _ _ => v

def TickOp.id : TickOp → String
  | .mk _ v _ _ _ _ _ _ => v

def TickOp.name : TickOp → String
  | .mk _ _ v _ _ _ _ _ => v

def TickOp.opts : TickOp → JsVal
  | .mk _ _ _ v _ _ _ _ => v

def TickOp.fn : TickOp → Option (Except JsError JsVal)
  | .mk _ _ _ _ v _ _ _ => v

def TickOp.status : TickOp → OpStatus
  | .mk _ _ _ _ _ v _ _ => v

def TickOp.children : TickOp → List TickOp
  | .mk _ _ _ _ _ _ v _ => v

def TickOp.tickOps : TickOp → List TickOp
  | .mk _ _ _ _ _ _ _ v => v

/-- Replace a node's registered child list, keeping every other field. -/
def TickOp.withTickOps : TickOp → List TickOp → TickOp
  | .mk a b c d e f g _, ts => .mk a b c d e f g ts

/-- Modelled from the spec: the user-supplied function, as the engine can
observe it.  The step handle registry (`createStepTools` of
`src/components/InngestStepTools.ts`, not among the sources) records the
steps the function registers during its synchronous prefix (`syncOps`, in
call order), and `result` is what directly awaiting the function yields when
no step tooling decides the outcome. -/
structure UserFn where
  syncOps : List TickOp
  result : Except JsError JsVal
deriving Repr

/-- Modelled from the spec: the per-invocation mutable run state created by
`createStepTools` and threaded through `runFn`: the full root-level child
list (`allFoundOps`), the currently active node's child list (represented by
the path `activePath` of the node owning it, `[]` for the root), the
selected thunk to run now (`userFnToRun`), and the op stack the invocation
was supplied (carried here to make mutation of the history expressible). -/
structure RunState where
  allFoundOps : List TickOp
  activePath : List Nat
  userFnToRun : Option (Except JsError JsVal)
  opStack : List IncomingOp
deriving Repr

/-- Whether the user function synchronously touched any step tool: the
registry flips this signal on the first tool call, so it holds exactly when
the synchronous prefix registered at least one op. -/
def hasUsedTools (fn : UserFn) : Bool :=
  !fn.syncOps.isEmpty

/-- How an invocation can fail as a whole: an explicit thrown drift error
(`throw new Error("Bad stack; ...")`), a TypeError from dereferencing an
`undefined` array slot while walking a position path, or the user function
itself throwing on the no-tools path. -/
inductive RunError : Type where
  | drift (msg : String)
  | typeError
  | userError (e : JsError)
deriving DecidableEq, Repr

/-- One step result reported for a selected thunk: a value or an error,
never both (`{ data }` or `{ error }` in the source). -/
inductive StepRes : Type where
  | data (v : JsVal)
  | error (e : JsVal)
deriving DecidableEq, Repr

/-- The three tagged outcomes of `runFn`: `["single", data]`,
`["multi-run", res]` and `["multi-discovery", ops]`. -/
inductive Outcome : Type where
  | single (v : JsVal)
  | multiRun (r : StepRes)
  | multiDiscovery (ops : List OutgoingOp)
deriving DecidableEq, Repr

/-- `typeof incomingOp.data !== "undefined"`: the record carries a value. -/
def IncomingOp.hasData (rec : IncomingOp) : Bool :=
  match rec.data with
  | some .undef => false
  | some _ => true
  | none => false

/-- The value a data-carrying record resolves its node with. -/
def IncomingOp.dataVal (rec : IncomingOp) : JsVal :=
  rec.data.getD JsVal.undef

/-- The value an error-carrying record rejects its node with
(`currentOp.reject(incomingOp.error)`; an absent field rejects with
`undefined`). -/
def IncomingOp.errVal (rec : IncomingOp) : JsVal :=
  rec.error.getD JsVal.undef

/-- Fulfil a node's pending value.  A promise settles only once, so a node
that is no longer pending is left untouched.  Settling with a value makes
the attached continuation runnable; the replay loop's single yield
(`await resolveNextTick()`, `src/helpers/promises.ts` not among the sources)
drains it before the next record, at which point the continuation's step
calls register into this node's child list (`state.tickOps` aliases
`currentOp.tickOps` by then) — so resolution appends the node's pending
`children` to its registered `tickOps`. -/
def resolveOp (t : TickOp) (v : JsVal) : TickOp :=
  match t with
  | .mk a b c d e .pending ch ops => .mk a b c d e (.resolvedW v) ch (ops ++ ch)
  | t => t

/-- Reject a node's pending value.  The value-continuation does not run, so
no children are registered. -/
def rejectOp (t : TickOp) (e : JsVal) : TickOp :=
  match t with
  | .mk a b c d f .pending ch ops => .mk a b c d f (.rejectedW e) ch ops
  | t => t

/-- The walk of one record's position path through the op tree
(`for (let i = 0; i < incomingOp.opPosition.length; i++) ...` of `runFn`).
Descends through each node's child list by index.  At the final path
element: a run record selects the node's thunk (returned as `some`), failing
with the explicit drift error when the node has none; otherwise the node is
resolved or rejected with the record's value or error.  An out-of-range
index leaves `currentOp` as `undefined`, so the next dereference throws a
TypeError; a record with an empty path reaches the post-walk
`if (!currentOp) throw ...` drift check. -/
def walk (rec : IncomingOp) : List Nat → List TickOp →
    Except RunError (List TickOp × Option (Except JsError JsVal))
  | [], _ => .error (.drift "Bad stack; fn might have changed; re-execute")
  | [i], ops =>
    match ops[i]? with
    | none => .error .typeError
    | some t =>
      if rec.run then
        match t.fn with
        | none => .error (.drift "Bad stack; no fn to execute; re-execute pls")
        | some f => .ok (ops, some f)
      else if rec.hasData then .ok (ops.set i (resolveOp t rec.dataVal), none)
      else .ok (ops.set i (rejectOp t rec.errVal), none)
  | i :: j :: rest, ops =>
    match ops[i]? with
    | none => .error .typeError
    | some t =>
      match walk rec (j :: rest) t.tickOps with
      | .error e => .error e
      | .ok (kids, sel) => .ok (ops.set i (t.withTickOps kids), sel)

/-- Process one history record against the run state (the body of `runFn`'s
`do ... while` for one `state.pos ≥ 0`): walk the record's path; a selected
thunk is stored in `userFnToRun` (and the loop will break before touching
`state.tickOps`), otherwise the active child list descends to the resolved
node's children (`state.tickOps = currentOp.tickOps`). -/
def processRecord (s : RunState) (rec : IncomingOp) : Except RunError RunState :=
  match walk rec rec.opPosition s.allFoundOps with
  | .error e => .error e
  | .ok (ops, some f) => .ok { s with allFoundOps := ops, userFnToRun := some f }
  | .ok (ops, none) => .ok { s with allFoundOps := ops, activePath := rec.opPosition }

/-- The tick-advancing replay loop over the op stack.  `state.pos` starts at
`-1`, so the first pass only yields once and advances; thereafter records
`0 .. len-1` are processed in order, and the loop breaks as soon as a thunk
has been selected (`if (state.userFnToRun) break`). -/
def runLoop (s : RunState) : List IncomingOp → Except RunError RunState
  | [] => .ok s
  | rec :: rest =>
    match processRecord s rec with
    | .error e => .error e
    | .ok s' =>
      match s'.userFnToRun with
      | some _ => .ok s'
      | none => runLoop s' rest

/-- Modelled from the spec: the error transport codec (`serializeError` of
the `serialize-error-cjs` dependency, not among the sources).  Structured
serialization preserves at least the message and the type discriminator; on
an unserializable value the codec itself throws. -/
def serializeError (e : JsError) : Except Unit SerializedError :=
  if e.serializable then .ok { name := e.name, message := e.message }
  else .error ()

/-- The warning printed when serializing a step's thrown error fails. -/
def serializeWarning : String :=
  "Could not serialize error to return to Inngest; stringifying instead"

/-- The error payload reported for a thrown step error: the serialized form,
or — when serialization itself throws — the raw thrown value. -/
def stepErrorVal (e : JsError) : JsVal :=
  match serializeError e with
  | .ok se => .serr se
  | .error _ => .errObj e

/-- The warnings emitted while reporting a thrown step error: exactly one
when serialization fell back to the raw value, none otherwise. -/
def stepErrorWarnings (e : JsError) : List String :=
  match serializeError e with
  | .ok _ => []
  | .error _ => [serializeWarning]

/-- Run the selected thunk and capture its resolution
(lines 251–282 of `runFn`): a resolved `undefined` is reported as `null`,
any other value verbatim; a thrown error becomes this step's error outcome,
serialized with the raw-value fallback.  Also returns the warnings printed
along the way. -/
def runThunk (f : Except JsError JsVal) : StepRes × List String :=
  match f with
  | .ok v => (.data (match v with | .undef => .null | v => v), [])
  | .error err => (.error (stepErrorVal err), stepErrorWarnings err)

/-- The initial run state created by `createStepTools` once the user
function's synchronous prefix has run: the root-level ops are registered,
the active child list is the root list, and no thunk is selected. -/
def initState (fn : UserFn) (opStack : List IncomingOp) : RunState :=
  { allFoundOps := fn.syncOps, activePath := [], userFnToRun := none,
    opStack := opStack }

/-- `opStack[opStack.length - 1]?.opPosition ?? []`: the parent position
path prefixed to each discovered op. -/
def lastPathOf (opStack : List IncomingOp) : List Nat :=
  (opStack.getLast?.map (·.opPosition)).getD []

/-- `state.tickOps.map((op, index) => ...)`: project the active child list
into outgoing ops, numbering the entries from `i`. -/
def discoverOps (parent : List Nat) : Nat → List TickOp → List OutgoingOp
  | _, [] => []
  | i, t :: ts =>
    { op := t.op, run := t.fn.isSome, id := t.id, name := t.name,
      opts := t.opts, opPosition := parent ++ [i] } :: discoverOps parent (i + 1) ts

/-- The child list of the node at `p` (the list `state.tickOps` aliases
after the loop; `[]` addresses the root list). -/
def childrenAt : List TickOp → List Nat → List TickOp
  | ops, [] => ops
  | ops, i :: rest =>
    match ops[i]? with
    | none => []
    | some t => childrenAt t.tickOps rest

/-- `InngestFunction.runFn`: run one invocation of the function against the
supplied op stack.  If the synchronous prefix never touched a step tool the
function's own awaited result is the single outcome (a thrown error
propagates to the caller).  Otherwise the replay loop reconciles the op
stack against the op tree; a selected thunk is executed now and reported as
this one step's result or error, and with no selection the active child
list is reported as the discovered ops, positioned under the last history
record's path.  The second component collects the warnings printed. -/
def runFn (fn : UserFn) (opStack : List IncomingOp) :
    Except RunError (Outcome × List String) :=
  if hasUsedTools fn = false then
    match fn.result with
    | .ok v => .ok (.single v, [])
    | .error e => .error (.userError e)
  else
    match runLoop (initState fn opStack) opStack with
    | .error e => .error e
    | .ok s =>
      match s.userFnToRun with
      | some f =>
        let r := runThunk f
        .ok (.multiRun r.1, r.2)
      | none =>
        .ok (.multiDiscovery
          (discoverOps (lastPathOf s.opStack) 0 (childrenAt s.allFoundOps s.activePath)), [])

/-- Pure lookup of the node a position path denotes, mirroring the walk's
descent without settling anything.  The empty path denotes no node (the
walk's `currentOp` stays `undefined` there). -/
def resolvesTo : List TickOp → List Nat → Option TickOp
  | _, [] => none
  | ops, [i] => ops[i]?
  | ops, i :: j :: rest =>
    match ops[i]? with
    | none => none
    | some t => resolvesTo t.tickOps (j :: rest)

/-! ### Basic facts about the tree primitives -/

theorem set_some_self {α : Type _} : ∀ (l : List α) (i : Nat) (a : α),
    l[i]? = some a → l.set i a = l
  | [], i, a, h => by simp at h
  | x :: xs, 0, a, h => by
    simp only [List.getElem?_cons_zero, Option.some.injEq] at h
    simp [h]
  | x :: xs, i + 1, a, h => by
    simp only [List.getElem?_cons_succ] at h
    simp [set_some_self xs i a h]

theorem withTickOps_tickOps (t : TickOp) (l : List TickOp) :
    (t.withTickOps l).tickOps = l := by
  cases t; rfl

theorem withTickOps_children (t : TickOp) (l : List TickOp) :
    (t.withTickOps l).children = t.children := by
  cases t; rfl

theorem withTickOps_self (t : TickOp) : t.withTickOps t.tickOps = t := by
  cases t; rfl

theorem rejectOp_tickOps (t : TickOp) (e : JsVal) :
    (rejectOp t e).tickOps = t.tickOps := by
  cases t with
  | mk a b c d f st ch ops => cases st <;> rfl

theorem rejectOp_children (t : TickOp) (e : JsVal) :
    (rejectOp t e).children = t.children := by
  cases t with
  | mk a b c d f st ch ops => cases st <;> rfl

theorem resolveOp_children (t : TickOp) (v : JsVal) :
    (resolveOp t v).children = t.children := by
  cases t with
  | mk a b c d f st ch ops => cases st <;> rfl

theorem resolveOp_tickOps (t : TickOp) (v : JsVal) :
    (resolveOp t v).tickOps = t.tickOps ∨
      (resolveOp t v).tickOps = t.tickOps ++ t.children := by
  cases t with
  | mk a b c d f st ch ops => cases st <;> simp [resolveOp, TickOp.tickOps, TickOp.children]

/-! ### Walk lemmas -/

theorem walk_selected_eq (rec : IncomingOp) :
    ∀ (p : List Nat) (ops ops' : List TickOp) (f : Except JsError JsVal),
    walk rec p ops = .ok (ops', some f) → ops' = ops := by
  intro p
  induction p with
  | nil => intro ops ops' f h; simp [walk] at h
  | cons i p' ih =>
    intro ops ops' f h
    cases p' with
    | nil =>
      simp only [walk] at h
      split at h
      · simp at h
      · rename_i t hop
        split at h
        · split at h
          · simp at h
          · rename_i f' hf
            simp only [Except.ok.injEq, Prod.mk.injEq] at h
            exact h.1.symm
        · split at h
          · simp at h
          · simp at h
    | cons j rest =>
      simp only [walk] at h
      split at h
      · simp at h
      · rename_i t hop
        split at h
        · simp at h
        · rename_i kids sel hw
          simp only [Except.ok.injEq, Prod.mk.injEq] at h
          obtain ⟨hops, hsel⟩ := h
          subst hsel
          have hk : kids = t.tickOps := ih t.tickOps kids f hw
          subst hk
          rw [withTickOps_self] at hops
          rw [← hops, set_some_self ops i t hop]

theorem walk_ok_resolves (rec : IncomingOp) :
    ∀ (p : List Nat) (ops : List TickOp) (pr : List TickOp × Option (Except JsError JsVal)),
    walk rec p ops = .ok pr → (resolvesTo ops p).isSome = true := by
  intro p
  induction p with
  | nil => intro ops pr h; simp [walk] at h
  | cons i p' ih =>
    intro ops pr h
    cases p' with
    | nil =>
      simp only [walk] at h
      split at h
      · simp at h
      · rename_i t hop
        simp [resolvesTo, hop]
    | cons j rest =>
      simp only [walk] at h
      split at h
      · simp at h
      · rename_i t hop
        split at h
        · simp at h
        · rename_i kids sel hw
          simp only [resolvesTo, hop]
          exact ih t.tickOps (kids, sel) hw

theorem walk_lookup_none (rec : IncomingOp) :
    ∀ (p : List Nat) (ops : List TickOp),
    resolvesTo ops p = none → ∃ e, walk rec p ops = .error e := by
  intro p
  induction p with
  | nil => intro ops _; exact ⟨_, rfl⟩
  | cons i p' ih =>
    intro ops hr
    cases p' with
    | nil =>
      simp only [resolvesTo] at hr
      simp only [walk, hr]
      exact ⟨_, rfl⟩
    | cons j rest =>
      simp only [resolvesTo] at hr
      simp only [walk]
      split
      · exact ⟨_, rfl⟩
      · rename_i t hop
        rw [hop] at hr
        obtain ⟨e, he⟩ := ih t.tickOps hr
        rw [he]
        exact ⟨e, rfl⟩

theorem walk_run_nofn (rec : IncomingOp) (hrun : rec.run = true) :
    ∀ (p : List Nat) (ops : List TickOp) (t : TickOp),
    resolvesTo ops p = some t → t.fn = none →
    walk rec p ops = .error (.drift "Bad stack; no fn to execute; re-execute pls") := by
  intro p
  induction p with
  | nil => intro ops t hr _; simp [resolvesTo] at hr
  | cons i p' ih =>
    intro ops t hr hf
    cases p' with
    | nil =>
      simp only [resolvesTo] at hr
      simp only [walk, hr, hrun, if_pos, hf]
    | cons j rest =>
      simp only [resolvesTo] at hr
      simp only [walk]
      split
      · rename_i hop
        rw [hop] at hr
        simp at hr
      · rename_i u hop
        rw [hop] at hr
        rw [ih u.tickOps t hr hf]

theorem walk_reject (rec : IncomingOp) (hrun : rec.run = false)
    (hd : rec.hasData = false) :
    ∀ (p : List Nat) (ops : List TickOp) (t : TickOp),
    resolvesTo ops p = some t →
    ∃ ops', walk rec p ops = .ok (ops', none) ∧
      resolvesTo ops' p = some (rejectOp t rec.errVal) := by
  intro p
  induction p with
  | nil => intro ops t hr; simp [resolvesTo] at hr
  | cons i p' ih =>
    intro ops t hr
    cases p' with
    | nil =>
      simp only [resolvesTo] at hr
      refine ⟨ops.set i (rejectOp t rec.errVal), ?_, ?_⟩
      · simp only [walk, hr, hrun, hd]
        simp
      · have hlen : i < ops.length := by
          by_contra hge
          rw [List.getElem?_eq_none (Nat.le_of_not_lt hge)] at hr
          exact absurd hr (by simp)
        simp [resolvesTo, List.getElem?_set_eq_of_lt _ hlen]
    | cons j rest =>
      simp only [resolvesTo] at hr
      cases hop : ops[i]? with
      | none => rw [hop] at hr; simp at hr
      | some u =>
        rw [hop] at hr
        obtain ⟨kids, hw, hres⟩ := ih u.tickOps t hr
        refine ⟨ops.set i (u.withTickOps kids), ?_, ?_⟩
        · simp only [walk, hop, hw]
        · have hlen : i < ops.length := by
            by_contra hge
            rw [List.getElem?_eq_none (Nat.le_of_not_lt hge)] at hop
            exact absurd hop (by simp)
          simp [resolvesTo, List.getElem?_set_eq_of_lt _ hlen,
            withTickOps_tickOps, hres]

/-! ### Loop plumbing -/

theorem processRecord_opStack (s : RunState) (rec : IncomingOp) (s' : RunState)
    (h : processRecord s rec = .ok s') : s'.opStack = s.opStack := by
  simp only [processRecord] at h
  split at h
  · simp at h
  · simp only [Except.ok.injEq] at h; rw [← h]
  · simp only [Except.ok.injEq] at h; rw [← h]

theorem runLoop_opStack :
    ∀ (h : List IncomingOp) (s s' : RunState),
    runLoop s h = .ok s' → s'.opStack = s.opStack := by
  intro h
  induction h with
  | nil => intro s s' hl; simp only [runLoop, Except.ok.injEq] at hl; rw [← hl]
  | cons rec rest ih =>
    intro s s' hl
    simp only [runLoop] at hl
    split at hl
    · simp at hl
    · rename_i s1 hp
      split at hl
      · simp only [Except.ok.injEq] at hl
        rw [← hl]
        exact processRecord_opStack s rec s1 hp
      · rw [ih s1 s' hl, processRecord_opStack s rec s1 hp]

theorem runLoop_append (l : List IncomingOp) :
    ∀ (pre : List IncomingOp) (s s1 : RunState),
    runLoop s pre = .ok s1 → s1.userFnToRun = none →
    runLoop s (pre ++ l) = runLoop s1 l := by
  intro pre
  induction pre with
  | nil =>
    intro s s1 hl hn
    simp only [runLoop, Except.ok.injEq] at hl
    rw [List.nil_append, hl]
  | cons rec rest ih =>
    intro s s1 hl hn
    simp only [runLoop] at hl
    rw [List.cons_append]
    simp only [runLoop]
    split at hl
    · simp at hl
    · rename_i s2 hp
      split at hl
      · rename_i f hf
        simp only [Except.ok.injEq] at hl
        rw [hl] at hf
        rw [hf] at hn
        simp at hn
      · exact ih s2 s1 hl hn

/-! ### Unfolding `runFn` on each branch -/

theorem runFn_single (fn : UserFn) (h : List IncomingOp)
    (hu : hasUsedTools fn = false) :
    runFn fn h = (match fn.result with
      | .ok v => .ok (.single v, [])
      | .error e => .error (.userError e)) := by
  rw [runFn, if_pos hu]

theorem runFn_loop_error (fn : UserFn) (h : List IncomingOp) (e : RunError)
    (hu : hasUsedTools fn = true)
    (hl : runLoop (initState fn h) h = .error e) :
    runFn fn h = .error e := by
  rw [runFn, if_neg (by simp [hu]), hl]

theorem runFn_selected (fn : UserFn) (h : List IncomingOp) (s : RunState)
    (f : Except JsError JsVal)
    (hu : hasUsedTools fn = true)
    (hl : runLoop (initState fn h) h = .ok s)
    (hs : s.userFnToRun = some f) :
    runFn fn h = .ok (.multiRun (runThunk f).1, (runThunk f).2) := by
  rw [runFn, if_neg (by simp [hu]), hl]
  simp only [hs]

theorem runFn_discovery (fn : UserFn) (h : List IncomingOp) (s : RunState)
    (hu : hasUsedTools fn = true)
    (hl : runLoop (initState fn h) h = .ok s)
    (hs : s.userFnToRun = none) :
    runFn fn h = .ok (.multiDiscovery
      (discoverOps (lastPathOf s.opStack) 0 (childrenAt s.allFoundOps s.activePath)), []) := by
  rw [runFn, if_neg (by simp [hu]), hl]
  simp only [hs]

/-! ### Well-formed op trees

Step tool calls always create brand-new nodes: a node that has not been
resolved yet has registered no children, and the registrations its
continuation will make are themselves brand-new nodes. -/

/-- A node the step handle registry would freshly create: no registered
children yet, and every node its continuation will register is fresh too. -/
def Fresh : TickOp → Prop
  | .mk _ _ _ _ _ _ ch ops => ops = [] ∧ ∀ c ∈ ch, Fresh c
termination_by t => sizeOf t
decreasing_by
  simp_wf
  rename_i hmem
  have h1 := List.sizeOf_lt_of_mem hmem
  omega

theorem Fresh_def (t : TickOp) :
    Fresh t ↔ t.tickOps = [] ∧ ∀ c ∈ t.children, Fresh c := by
  cases t with
  | mk a b c d e f ch ops =>
    conv_lhs => rw [Fresh.eq_def]
    rfl

/-- A node of the live op tree: whatever its settlement state, the steps its
continuation has yet to register are fresh, and so is every registered
child, recursively. -/
def WFOp : TickOp → Prop
  | .mk _ _ _ _ _ _ ch ops => (∀ c ∈ ch, Fresh c) ∧ ∀ u ∈ ops, WFOp u
termination_by t => sizeOf t
decreasing_by
  all_goals
    simp_wf
    rename_i hmem
    have h1 := List.sizeOf_lt_of_mem hmem
    omega

theorem WFOp_def (t : TickOp) :
    WFOp t ↔ (∀ c ∈ t.children, Fresh c) ∧ ∀ u ∈ t.tickOps, WFOp u := by
  cases t with
  | mk a b c d e f ch ops =>
    conv_lhs => rw [WFOp.eq_def]
    rfl

theorem Fresh.toWFOp (t : TickOp) (h : Fresh t) : WFOp t := by
  rw [Fresh_def] at h
  rw [WFOp_def, h.1]
  exact ⟨h.2, by intro u hu; simp at hu⟩

theorem WFOp_rejectOp (t : TickOp) (e : JsVal) (h : WFOp t) :
    WFOp (rejectOp t e) := by
  rw [WFOp_def] at h ⊢
  rw [rejectOp_children, rejectOp_tickOps]
  exact h

theorem WFOp_resolveOp (t : TickOp) (v : JsVal) (h : WFOp t) :
    WFOp (resolveOp t v) := by
  rw [WFOp_def] at h ⊢
  rw [resolveOp_children]
  refine ⟨h.1, ?_⟩
  intro u hu
  rcases resolveOp_tickOps t v with heq | heq <;> rw [heq] at hu
  · exact h.2 u hu
  · rcases List.mem_append.mp hu with hm | hm
    · exact h.2 u hm
    · exact Fresh.toWFOp u (h.1 u hm)

theorem WFOp_withTickOps (t : TickOp) (l : List TickOp) (h : WFOp t)
    (hl : ∀ u ∈ l, WFOp u) : WFOp (t.withTickOps l) := by
  rw [WFOp_def] at h ⊢
  rw [withTickOps_children, withTickOps_tickOps]
  exact ⟨h.1, hl⟩

theorem Fresh_tickOps_nil (t : TickOp) (h : Fresh t) : t.tickOps = [] :=
  ((Fresh_def t).mp h).1

/-- `resolvesTo` cannot enter an empty child list. -/
theorem resolvesTo_nil_isNone : ∀ (q : List Nat), resolvesTo [] q = none
  | [] => rfl
  | [i] => by simp [resolvesTo]
  | i :: j :: rest => by simp [resolvesTo]

/-- Settling one record grows the op tree by at most the settled node's
freshly registered children: any node of the settled tree either already
existed or sits directly under the walked path. -/
theorem walk_growth (rec : IncomingOp) :
    ∀ (p : List Nat) (ops ops' : List TickOp) (sel : Option (Except JsError JsVal)),
    walk rec p ops = .ok (ops', sel) →
    (∀ u ∈ ops, WFOp u) →
    (∀ u ∈ ops', WFOp u) ∧
    (∀ q, (resolvesTo ops' q).isSome = true →
      (resolvesTo ops q).isSome = true ∨ ∃ j, q = p ++ [j]) := by
  intro p
  induction p with
  | nil => intro ops ops' sel h hwf; simp [walk] at h
  | cons i p' ih =>
    intro ops ops' sel h hwf
    cases p' with
    | nil =>
      simp only [walk] at h
      split at h
      · simp at h
      · rename_i t hop
        have htmem : t ∈ ops := List.getElem?_mem hop
        have hlen : i < ops.length := by
          by_contra hge
          rw [List.getElem?_eq_none (Nat.le_of_not_lt hge)] at hop
          exact absurd hop (by simp)
        split at h
        · split at h
          · simp at h
          · rename_i f hf
            simp only [Except.ok.injEq, Prod.mk.injEq] at h
            rw [← h.1]
            refine ⟨hwf, ?_⟩
            intro q hq
            exact Or.inl hq
        · -- the record settles the node: `ops' = ops.set i x` for the
          -- resolved or rejected node `x`
          have key : ∀ (x : TickOp),
              (WFOp x) →
              (x.tickOps = t.tickOps ∨ x.tickOps = t.tickOps ++ t.children) →
              ops' = ops.set i x →
              (∀ u ∈ ops', WFOp u) ∧
              (∀ q, (resolvesTo ops' q).isSome = true →
                (resolvesTo ops q).isSome = true ∨ ∃ j, q = [i] ++ [j]) := by
            intro x hxwf hxops hops'
            subst hops'
            constructor
            · intro u hu
              rcases List.mem_or_eq_of_mem_set hu with hm | hm
              · exact hwf u hm
              · rw [hm]; exact hxwf
            · intro q hq
              match q with
              | [] => simp [resolvesTo] at hq
              | [k] =>
                by_cases hk : k = i
                · subst hk
                  left
                  simp [resolvesTo, hop]
                · left
                  simp only [resolvesTo] at hq ⊢
                  rw [List.getElem?_set_ne (fun hne => hk hne.symm)] at hq
                  exact hq
              | k :: l :: ls =>
                by_cases hk : k = i
                · subst hk
                  simp only [resolvesTo,
                    List.getElem?_set_eq_of_lt _ hlen] at hq
                  rcases hxops with hx | hx
                  · left
                    rw [hx] at hq
                    simp only [resolvesTo, hop]
                    exact hq
                  · rw [hx] at hq
                    cases ls with
                    | nil => right; exact ⟨l, rfl⟩
                    | cons m ms =>
                      simp only [resolvesTo] at hq
                      by_cases hl : l < t.tickOps.length
                      · left
                        rw [List.getElem?_append_left hl] at hq
                        simp only [resolvesTo, hop]
                        exact hq
                      · rw [List.getElem?_append_right (Nat.le_of_not_lt hl)] at hq
                        cases hc : t.children[l - t.tickOps.length]? with
                        | none => rw [hc] at hq; simp at hq
                        | some c =>
                          simp only [hc] at hq
                          have hcfresh : Fresh c := by
                            have := (WFOp_def t).mp (hwf t htmem)
                            exact this.1 c (List.getElem?_mem hc)
                          rw [Fresh_tickOps_nil c hcfresh,
                            resolvesTo_nil_isNone] at hq
                          simp at hq
                · left
                  simp only [resolvesTo] at hq ⊢
                  rw [List.getElem?_set_ne (fun hne => hk hne.symm)] at hq
                  exact hq
          split at h
          · rename_i hd
            simp only [Except.ok.injEq, Prod.mk.injEq] at h
            exact key (resolveOp t rec.dataVal)
              (WFOp_resolveOp t _ (hwf t htmem))
              (resolveOp_tickOps t _) h.1.symm
          · simp only [Except.ok.injEq, Prod.mk.injEq] at h
            refine key (rejectOp t rec.errVal)
              (WFOp_rejectOp t _ (hwf t htmem))
              (Or.inl (rejectOp_tickOps t _)) h.1.symm
    | cons j rest =>
      simp only [walk] at h
      split at h
      · simp at h
      · rename_i t hop
        have htmem : t ∈ ops := List.getElem?_mem hop
        have hlen : i < ops.length := by
          by_contra hge
          rw [List.getElem?_eq_none (Nat.le_of_not_lt hge)] at hop
          exact absurd hop (by simp)
        split at h
        · simp at h
        · rename_i kids sel' hw
          simp only [Except.ok.injEq, Prod.mk.injEq] at h
          obtain ⟨hops, hsel⟩ := h
          obtain ⟨hkwf, hkgrow⟩ := ih t.tickOps kids sel' hw
            (((WFOp_def t).mp (hwf t htmem)).2)
          subst hops
          constructor
          · intro u hu
            rcases List.mem_or_eq_of_mem_set hu with hm | hm
            · exact hwf u hm
            · rw [hm]
              exact WFOp_withTickOps t kids (hwf t htmem) hkwf
          · intro q hq
            match q with
            | [] => simp [resolvesTo] at hq
            | [k] =>
              by_cases hk : k = i
              · subst hk
                left
                simp [resolvesTo, hop]
              · left
                simp only [resolvesTo] at hq ⊢
                rw [List.getElem?_set_ne (fun hne => hk hne.symm)] at hq
                exact hq
            | k :: l :: ls =>
              by_cases hk : k = i
              · subst hk
                simp only [resolvesTo, List.getElem?_set_eq_of_lt _ hlen,
                  withTickOps_tickOps] at hq
                rcases hkgrow (l :: ls) hq with hold | ⟨jj, hjj⟩
                · left
                  simp only [resolvesTo, hop]
                  exact hold
                · right
                  exact ⟨jj, by rw [hjj]; rfl⟩
              · left
                simp only [resolvesTo] at hq ⊢
                rw [List.getElem?_set_ne (fun hne => hk hne.symm)] at hq
                exact hq

/-! ### Discovery entries are unmatched by the history

A record can only be processed once its node exists, a node below the root
only comes to exist when its parent is resolved by a record at the parent's
exact path, and on a successfully replayed history without duplicate paths
the parent of the final active context is the last record itself — so no
record can sit at a path the discovery will report. -/

/-- A position path denotes a node of the tree. -/
def NodeExists (ops : List TickOp) (q : List Nat) : Prop :=
  (resolvesTo ops q).isSome = true

/-- Every node below the root level sits under a parent whose exact path has
already been resolved with a value by some processed record (collected in
`A`). -/
def DeepOK (A : List (List Nat)) (ops : List TickOp) : Prop :=
  ∀ q j, NodeExists ops (q ++ [j]) → q = [] ∨ q ∈ A

theorem fresh_no_deep (ops : List TickOp) (hf : ∀ t ∈ ops, Fresh t) :
    ∀ (k x : Nat) (rest : List Nat),
    ¬ NodeExists ops (k :: x :: rest) := by
  intro k x rest hex
  rw [NodeExists] at hex
  simp only [resolvesTo] at hex
  cases hop : ops[k]? with
  | none => rw [hop] at hex; simp at hex
  | some t =>
    simp only [hop] at hex
    rw [Fresh_tickOps_nil t (hf t (List.getElem?_mem hop)),
      resolvesTo_nil_isNone] at hex
    simp at hex

theorem DeepOK_of_fresh (A : List (List Nat)) (ops : List TickOp)
    (hf : ∀ t ∈ ops, Fresh t) : DeepOK A ops := by
  intro q j hex
  cases q with
  | nil => exact Or.inl rfl
  | cons k ks =>
    exfalso
    rcases List.exists_cons_of_ne_nil
      (show ks ++ [j] ≠ [] by simp) with ⟨x, rest, hcons⟩
    rw [List.cons_append, hcons] at hex
    exact fresh_no_deep ops hf k x rest hex

/-- A successful, non-selecting `processRecord` is a successful walk plus
the context descent. -/
theorem processRecord_noSel (s : RunState) (rec : IncomingOp) (s' : RunState)
    (hp : processRecord s rec = .ok s') (hn : s'.userFnToRun = none) :
    ∃ ops', walk rec rec.opPosition s.allFoundOps = .ok (ops', none) ∧
      s' = { s with allFoundOps := ops', activePath := rec.opPosition } := by
  simp only [processRecord] at hp
  split at hp
  · simp at hp
  · rename_i ops f hw
    simp only [Except.ok.injEq] at hp
    rw [← hp] at hn
    simp at hn
  · rename_i ops hw
    simp only [Except.ok.injEq] at hp
    exact ⟨ops, hw, hp.symm⟩

theorem lastPathOf_singleton (rec : IncomingOp) : lastPathOf [rec] = rec.opPosition := rfl

theorem lastPathOf_cons (rec r2 : IncomingOp) (rest' : List IncomingOp) :
    lastPathOf (rec :: r2 :: rest') = lastPathOf (r2 :: rest') := by
  simp [lastPathOf, List.getLast?_cons_cons]

theorem lastPathOf_mem_map (l : List IncomingOp) (h : l ≠ []) :
    lastPathOf l ∈ l.map (·.opPosition) := by
  rw [lastPathOf, List.getLast?_eq_getLast l h]
  exact List.mem_map_of_mem _ (List.getLast_mem h)

theorem runLoop_paths_nonempty :
    ∀ (h : List IncomingOp) (s s' : RunState),
    runLoop s h = .ok s' → s'.userFnToRun = none →
    ∀ r ∈ h, r.opPosition ≠ [] := by
  intro h
  induction h with
  | nil => intro s s' _ _ r hr; simp at hr
  | cons rec rest ih =>
    intro s s' hl hn r hr
    simp only [runLoop] at hl
    split at hl
    · simp at hl
    · rename_i s1 hp
      split at hl
      · rename_i f hf
        simp only [Except.ok.injEq] at hl
        rw [hl] at hf
        rw [hf] at hn
        simp at hn
      · rename_i hf
        rcases List.mem_cons.mp hr with hre | hre
        · obtain ⟨ops', hw, _⟩ := processRecord_noSel s rec s1 hp hf
          rw [hre]
          intro hnil
          rw [hnil] at hw
          simp [walk] at hw
        · exact ih s1 s' hl hn r hre

/-- On a successfully replayed history with pairwise-distinct position paths
and no selected thunk, no record's path lies directly under the last
record's path — the region where discovered ops are reported. -/
theorem loop_unmatched :
    ∀ (h : List IncomingOp) (s : RunState) (A : List (List Nat)) (s' : RunState),
    (∀ u ∈ s.allFoundOps, WFOp u) →
    DeepOK A s.allFoundOps →
    (A ++ h.map (·.opPosition)).Nodup →
    runLoop s h = .ok s' → s'.userFnToRun = none →
    ∀ r ∈ h, ∀ j : Nat, r.opPosition ≠ lastPathOf h ++ [j] := by
  intro h
  induction h with
  | nil => intro s A s' _ _ _ _ _ r hr; simp at hr
  | cons rc rest ih =>
    intro s A s' hwf hdeep hnodup hl hn
    simp only [runLoop] at hl
    split at hl
    · simp at hl
    · rename_i s1 hp
      split at hl
      · rename_i f hf
        simp only [Except.ok.injEq] at hl
        rw [hl] at hf
        rw [hf] at hn
        simp at hn
      · rename_i hf
        obtain ⟨ops', hw, hs1⟩ := processRecord_noSel s rc s1 hp hf
        obtain ⟨hwf', hgrow⟩ :=
          walk_growth rc rc.opPosition s.allFoundOps ops' none hw hwf
        have hwf1 : ∀ u ∈ s1.allFoundOps, WFOp u := by rw [hs1]; exact hwf'
        have hdeep1 : DeepOK (A ++ [rc.opPosition]) s1.allFoundOps := by
          rw [hs1]
          intro q j hex
          rcases hgrow (q ++ [j]) hex with hold | ⟨jj, hjj⟩
          · rcases hdeep q j hold with hnil | hA
            · exact Or.inl hnil
            · exact Or.inr (List.mem_append.mpr (Or.inl hA))
          · have hqp := List.append_inj' hjj rfl
            refine Or.inr (List.mem_append.mpr (Or.inr ?_))
            rw [hqp.1]
            exact List.mem_singleton.mpr rfl
        have hnodup1 :
            ((A ++ [rc.opPosition]) ++ rest.map (·.opPosition)).Nodup := by
          rw [List.map_cons, List.append_cons] at hnodup
          exact hnodup
        have IH := ih s1 (A ++ [rc.opPosition]) s' hwf1 hdeep1 hnodup1 hl hn
        have hex0 : (resolvesTo s.allFoundOps rc.opPosition).isSome = true :=
          walk_ok_resolves rc rc.opPosition s.allFoundOps (ops', none) hw
        intro r hr j
        cases rest with
        | nil =>
          have hre : r = rc := List.mem_singleton.mp hr
          rw [hre, lastPathOf_singleton]
          intro heq
          have hlenq := congrArg List.length heq
          simp at hlenq
        | cons r2 rest' =>
          rw [lastPathOf_cons]
          rcases List.mem_cons.mp hr with hre | hre
          · intro heq
            rw [hre] at heq
            rw [heq] at hex0
            rcases hdeep (lastPathOf (r2 :: rest')) j hex0 with hnil | hA
            · have hne : lastPathOf (r2 :: rest') ∈
                  (r2 :: rest').map (·.opPosition) :=
                lastPathOf_mem_map _ (by simp)
              have hpn := runLoop_paths_nonempty (r2 :: rest') s1 s' hl hn
              obtain ⟨rr, hrr, hrreq⟩ := List.mem_map.mp hne
              exact hpn rr hrr (by rw [hrreq, hnil])
            · have hdis := List.disjoint_of_nodup_append hnodup
              have hmem : lastPathOf (r2 :: rest') ∈
                  (rc :: r2 :: rest').map (·.opPosition) := by
                have hmm : lastPathOf (r2 :: rest') ∈
                    (r2 :: rest').map (·.opPosition) :=
                  lastPathOf_mem_map _ (by simp)
                simp only [List.map_cons] at hmm ⊢
                exact List.mem_cons_of_mem _ hmm
              exact hdis hA hmem
          · exact IH r hre j

/-! ### Remaining helpers for the claims -/

def Outcome.isSingle : Outcome → Bool
  | .single _ => true
  | _ => false

def Outcome.isMultiRun : Outcome → Bool
  | .multiRun _ => true
  | _ => false

def Outcome.isMultiDiscovery : Outcome → Bool
  | .multiDiscovery _ => true
  | _ => false

def StepRes.isData : StepRes → Bool
  | .data _ => true
  | _ => false

def StepRes.isErr : StepRes → Bool
  | .error _ => true
  | _ => false

theorem discoverOps_getElem :
    ∀ (l : List TickOp) (parent : List Nat) (k i : Nat) (t : TickOp),
    l[i]? = some t →
    (discoverOps parent k l)[i]? = some
      { op := t.op, run := t.fn.isSome, id := t.id, name := t.name,
        opts := t.opts, opPosition := parent ++ [k + i] } := by
  intro l
  induction l with
  | nil => intro parent k i t ht; simp at ht
  | cons x xs ih =>
    intro parent k i t ht
    cases i with
    | zero =>
      simp only [List.getElem?_cons_zero, Option.some.injEq] at ht
      subst ht
      simp [discoverOps]
    | succ i' =>
      simp only [List.getElem?_cons_succ] at ht
      have := ih parent (k + 1) i' t ht
      simp only [discoverOps, List.getElem?_cons_succ]
      rw [this]
      have harith : k + 1 + i' = k + (i' + 1) := by omega
      rw [harith]

theorem processRecord_bad (s : RunState) (rec : IncomingOp)
    (hbad : resolvesTo s.allFoundOps rec.opPosition = none ∨
      (rec.run = true ∧ ∃ t, resolvesTo s.allFoundOps rec.opPosition = some t ∧
        t.fn = none)) :
    ∃ e, processRecord s rec = .error e := by
  rcases hbad with hnone | ⟨hrun, t, ht, hfn⟩
  · obtain ⟨e, he⟩ := walk_lookup_none rec rec.opPosition s.allFoundOps hnone
    exact ⟨e, by simp only [processRecord, he]⟩
  · refine ⟨.drift "Bad stack; no fn to execute; re-execute pls", ?_⟩
    simp only [processRecord, walk_run_nofn rec hrun rec.opPosition s.allFoundOps t ht hfn]

theorem runLoop_cons_error (s : RunState) (rec : IncomingOp)
    (rest : List IncomingOp) (e : RunError)
    (hp : processRecord s rec = .error e) :
    runLoop s (rec :: rest) = .error e := by
  simp only [runLoop, hp]

/-! ### Concrete fixtures used by the witnesses -/

def errBoom : JsError := { name := "Error", message := "boom", serializable := true }

def errOdd : JsError := { name := "Error", message := "odd", serializable := false }

def opB : TickOp := .mk "Step" "b" "b" .null (some (.ok (.num 2))) .pending [] []

def opA : TickOp := .mk "Step" "a" "a" .null (some (.ok (.num 1))) .pending [opB] []

/-- `opA` after being resolved with `1`: its continuation registered `opB`. -/
def opA1 : TickOp :=
  .mk "Step" "a" "a" .null (some (.ok (.num 1))) (.resolvedW (.num 1)) [opB] [opB]

def opT : TickOp := .mk "Step" "t" "t" .null (some (.error errBoom)) .pending [] []

def opU : TickOp := .mk "Step" "u" "u" .null (some (.error errOdd)) .pending [] []

def opV : TickOp := .mk "Step" "v" "v" .null (some (.ok .undef)) .pending [] []

def fnAB : UserFn := { syncOps := [opA], result := .ok .undef }

def fnT : UserFn := { syncOps := [opT], result := .ok .undef }

def fnU : UserFn := { syncOps := [opU], result := .ok .undef }

def fnV : UserFn := { syncOps := [opV], result := .ok .undef }

def fnNone : UserFn := { syncOps := [], result := .ok (.num 5) }

/-- A history selecting the root step for execution now. -/
def histRun : List IncomingOp := [⟨[0], true, none, none⟩]

/-- A history resolving the root step with the value `1`. -/
def histData : List IncomingOp := [⟨[0], false, some (.num 1), none⟩]

/-- A history whose single record references a non-existent child index. -/
def histBad : List IncomingOp := [⟨[5], true, none, none⟩]

/-- The state after replaying `histData` against `fnAB`. -/
def sAfterData : RunState :=
  { allFoundOps := [opA1], activePath := [0], userFnToRun := none,
    opStack := histData }

/-! ### The claims -/

/-- C1: for every input and history, `runFn` either fails as a whole or
returns exactly one of the three mutually exclusive tagged outcomes
`single`, `multiRun` (the spec's `StepResult`) and `multiDiscovery`, and a
`multiRun` outcome carries either a value or an error but never both. -/
theorem claim1_outcome_trichotomy (fn : UserFn) (h : List IncomingOp) :
    (∃ e, runFn fn h = .error e) ∨
    (∃ r w, runFn fn h = .ok (r, w) ∧
      r.isSingle.toNat + r.isMultiRun.toNat + r.isMultiDiscovery.toNat = 1 ∧
      ∀ sr, r = .multiRun sr → sr.isData ≠ sr.isErr) := by
  cases hres : runFn fn h with
  | error e => exact Or.inl ⟨e, rfl⟩
  | ok pr =>
    obtain ⟨r, w⟩ := pr
    refine Or.inr ⟨r, w, rfl, ?_, ?_⟩
    · cases r <;> rfl
    · intro sr hsr
      cases sr <;> simp [StepRes.isData, StepRes.isErr]

/-- C5: if the user function makes no step-tool calls, `runFn` returns
`single` with the value obtained by directly awaiting the function, for
every history — the replay loop is never consulted, so the outcome is the
same as for the empty history. -/
theorem claim5_no_tools_single (fn : UserFn) (h : List IncomingOp) (v : JsVal)
    (hnt : fn.syncOps = []) (hres : fn.result = .ok v) :
    runFn fn h = .ok (.single v, []) ∧ runFn fn h = runFn fn [] := by
  have hu : hasUsedTools fn = false := by simp [hasUsedTools, hnt]
  constructor
  · rw [runFn_single fn h hu, hres]
  · rw [runFn_single fn h hu, runFn_single fn [] hu]

theorem claim5_witness :
    runFn fnNone histRun = .ok (.single (.num 5), []) ∧
    runFn fnNone histRun = runFn fnNone [] :=
  claim5_no_tools_single fnNone histRun (.num 5) rfl rfl

/-- C9: the choice between the single path and the step paths depends only
on whether a step tool was touched during the synchronous prefix: with the
signal unset the history is ignored entirely — even when non-empty, as for
a function that first touches tools only after an asynchronous suspension —
and the awaited result alone decides the outcome; with the signal set the
outcome is never `single`. -/
theorem claim9_sync_prefix_decides (fn : UserFn) (h : List IncomingOp)
    (hnt : hasUsedTools fn = false) :
    runFn fn h = runFn fn [] ∧
    (∀ v, fn.result = .ok v → runFn fn h = .ok (.single v, [])) ∧
    (∀ e, fn.result = .error e → runFn fn h = .error (.userError e)) ∧
    (∀ (g : UserFn) (h' : List IncomingOp) (v : JsVal) (w : List String),
      hasUsedTools g = true → runFn g h' ≠ .ok (.single v, w)) := by
  refine ⟨?_, ?_, ?_, ?_⟩
  · rw [runFn_single fn h hnt, runFn_single fn [] hnt]
  · intro v hv
    rw [runFn_single fn h hnt, hv]
  · intro e he
    rw [runFn_single fn h hnt, he]
  · intro g h' v w hg
    rw [runFn, if_neg (by simp [hg])]
    cases hl : runLoop (initState g h') h' with
    | error e => simp [hl]
    | ok s =>
      simp only [hl]
      cases hs : s.userFnToRun with
      | some f => simp [hs]
      | none => simp [hs]

theorem claim9_witness :
    runFn fnNone histData = runFn fnNone [] ∧
    runFn fnNone histData = .ok (.single (.num 5), []) ∧
    runFn fnAB histRun ≠ .ok (.single (.num 5), []) := by
  have hmain := claim9_sync_prefix_decides fnNone histData rfl
  exact ⟨hmain.1, hmain.2.1 (.num 5) rfl,
    hmain.2.2.2 fnAB histRun (.num 5) [] rfl⟩

/-- C3: whenever the replay loop selected a step's thunk to run now and that
thunk throws, the invocation does not fail: it returns normally with the
thrown error captured as this one step's `multiRun` error outcome, in
serialized form whenever the codec succeeds. -/
theorem claim3_thrown_step_error_captured (fn : UserFn) (h : List IncomingOp)
    (s : RunState) (e : JsError)
    (hu : hasUsedTools fn = true)
    (hl : runLoop (initState fn h) h = .ok s)
    (hsel : s.userFnToRun = some (.error e)) :
    runFn fn h = .ok (.multiRun (.error (stepErrorVal e)), stepErrorWarnings e) ∧
    (e.serializable = true →
      stepErrorVal e = .serr { name := e.name, message := e.message }) := by
  constructor
  · rw [runFn_selected fn h s (.error e) hu hl hsel]
    rfl
  · intro hser
    rw [stepErrorVal, serializeError, if_pos hser]

theorem claim3_witness :
    runFn fnT histRun =
      .ok (.multiRun (.error (stepErrorVal errBoom)), stepErrorWarnings errBoom) ∧
    stepErrorVal errBoom = .serr { name := "Error", message := "boom" } := by
  have hmain := claim3_thrown_step_error_captured fnT histRun
    { allFoundOps := [opT], activePath := [], userFnToRun := some (.error errBoom),
      opStack := histRun } errBoom rfl rfl rfl
  exact ⟨hmain.1, hmain.2 rfl⟩

/-- C6: if serializing a step's thrown error itself throws, the codec falls
back to reporting the raw thrown value as the step's error outcome and only
a warning is printed — the invocation still returns normally. -/
theorem claim6_serialization_fallback (fn : UserFn) (h : List IncomingOp)
    (s : RunState) (e : JsError)
    (hu : hasUsedTools fn = true)
    (hl : runLoop (initState fn h) h = .ok s)
    (hsel : s.userFnToRun = some (.error e))
    (hser : e.serializable = false) :
    runFn fn h = .ok (.multiRun (.error (.errObj e)), [serializeWarning]) := by
  rw [runFn_selected fn h s (.error e) hu hl hsel]
  have h1 : stepErrorVal e = .errObj e := by
    rw [stepErrorVal, serializeError, if_neg (by simp [hser])]
  have h2 : stepErrorWarnings e = [serializeWarning] := by
    rw [stepErrorWarnings, serializeError, if_neg (by simp [hser])]
  simp only [runThunk, h1, h2]

theorem claim6_witness :
    runFn fnU histRun = .ok (.multiRun (.error (.errObj errOdd)), [serializeWarning]) :=
  claim6_serialization_fallback fnU histRun
    { allFoundOps := [opU], activePath := [], userFnToRun := some (.error errOdd),
      opStack := histRun } errOdd rfl rfl rfl rfl

/-- C10: when a selected thunk resolves with `undefined`, the step result
reports its value as `null`; every other resolved value is passed through
unchanged. -/
theorem claim10_undefined_becomes_null (fn : UserFn) (h : List IncomingOp)
    (s : RunState) (v : JsVal)
    (hu : hasUsedTools fn = true)
    (hl : runLoop (initState fn h) h = .ok s)
    (hsel : s.userFnToRun = some (.ok v)) :
    (v = .undef → runFn fn h = .ok (.multiRun (.data .null), [])) ∧
    (v ≠ .undef → runFn fn h = .ok (.multiRun (.data v), [])) := by
  constructor
  · intro hv
    subst hv
    rw [runFn_selected fn h s (.ok .undef) hu hl hsel]
    rfl
  · intro hv
    rw [runFn_selected fn h s (.ok v) hu hl hsel]
    have hm : (match v with | JsVal.undef => JsVal.null | v => v) = v := by
      cases v <;> first | (exact absurd rfl hv) | rfl
    simp only [runThunk, hm]

theorem claim10_witness :
    runFn fnV histRun = .ok (.multiRun (.data .null), []) ∧
    runFn fnAB histRun = .ok (.multiRun (.data (.num 1)), []) := by
  have hv := claim10_undefined_becomes_null fnV histRun
    { allFoundOps := [opV], activePath := [], userFnToRun := some (.ok .undef),
      opStack := histRun } .undef rfl rfl rfl
  have ha := claim10_undefined_becomes_null fnAB histRun
    { allFoundOps := [opA], activePath := [], userFnToRun := some (.ok (.num 1)),
      opStack := histRun } (.num 1) rfl rfl rfl
  exact ⟨hv.1 rfl, ha.2 (by simp)⟩

/-- C2: when the replay loop reaches a record whose position path does not
resolve to an existing op-tree node, or a run record whose node carries no
executable thunk, the invocation as a whole fails with an error — it never
returns a normal `single`, `multiRun` or `multiDiscovery` outcome. -/
theorem claim2_drift_fails (fn : UserFn) (h pre post : List IncomingOp)
    (rc : IncomingOp) (s : RunState)
    (hu : hasUsedTools fn = true)
    (hh : h = pre ++ rc :: post)
    (hl : runLoop (initState fn h) pre = .ok s)
    (hn : s.userFnToRun = none)
    (hbad : resolvesTo s.allFoundOps rc.opPosition = none ∨
      (rc.run = true ∧ ∃ t, resolvesTo s.allFoundOps rc.opPosition = some t ∧
        t.fn = none)) :
    ∃ e, runFn fn h = .error e := by
  obtain ⟨e, he⟩ := processRecord_bad s rc hbad
  have happ := runLoop_append (rc :: post) pre (initState fn h) s hl hn
  have hfull : runLoop (initState fn h) h = .error e := by
    nth_rewrite 2 [hh]
    rw [happ]
    exact runLoop_cons_error s rc post e he
  exact ⟨e, runFn_loop_error fn h e hu hfull⟩

theorem claim2_witness : ∃ e, runFn fnAB histBad = .error e :=
  claim2_drift_fails fnAB histBad [] [] ⟨[5], true, none, none⟩
    (initState fnAB histBad) rfl rfl rfl rfl (Or.inl rfl)

/-- C7: replaying a record that carries a serialized error at a resolvable
position path (run flag unset, no value) rejects that step's pending value
with the serialized error, whose message is the original thrown error's
message — serializing a thrown error and replaying it round-trips the
message. -/
theorem claim7_error_roundtrip (s : RunState) (rc : IncomingOp) (e : JsError)
    (se : SerializedError) (t : TickOp)
    (hrun : rc.run = false) (hd : rc.hasData = false)
    (hser : serializeError e = .ok se)
    (herr : rc.error = some (.serr se))
    (hres : resolvesTo s.allFoundOps rc.opPosition = some t)
    (hpend : t.status = .pending) :
    ∃ s', processRecord s rc = .ok s' ∧
      (∃ t', resolvesTo s'.allFoundOps rc.opPosition = some t' ∧
        t'.status = .rejectedW (.serr se)) ∧
      se.message = e.message := by
  obtain ⟨ops', hw, hres'⟩ :=
    walk_reject rc hrun hd rc.opPosition s.allFoundOps t hres
  refine ⟨{ s with allFoundOps := ops', activePath := rc.opPosition }, ?_, ?_, ?_⟩
  · simp only [processRecord, hw]
  · refine ⟨rejectOp t rc.errVal, hres', ?_⟩
    have hev : rc.errVal = .serr se := by
      rw [IncomingOp.errVal, herr]
      rfl
    cases t with
    | mk a b c d f st ch ops =>
      simp only [TickOp.status] at hpend
      subst hpend
      simp only [rejectOp, TickOp.status, hev]
  · rw [serializeError] at hser
    by_cases hsb : e.serializable = true
    · rw [if_pos hsb] at hser
      simp only [Except.ok.injEq] at hser
      rw [← hser]
    · rw [if_neg hsb] at hser
      exact absurd hser (by simp)

theorem claim7_witness :
    ∃ s', processRecord (initState fnAB []) ⟨[0], false, none,
        some (.serr { name := "Error", message := "boom" })⟩ = .ok s' ∧
      (∃ t', resolvesTo s'.allFoundOps [0] = some t' ∧
        t'.status = .rejectedW (.serr { name := "Error", message := "boom" })) ∧
      SerializedError.message { name := "Error", message := "boom" } =
        errBoom.message :=
  claim7_error_roundtrip (initState fnAB [])
    ⟨[0], false, none, some (.serr { name := "Error", message := "boom" })⟩
    errBoom { name := "Error", message := "boom" } opA rfl rfl rfl rfl rfl rfl

/-- C8: the embedding of `runFn` is a pure function of the function body and
the history, so replaying the same history twice yields the same outcome;
substantively, the loop never mutates the supplied op stack, so the state it
finishes with still holds the original history and a second invocation on
that carried history is the same invocation. -/
theorem claim8_idempotent_no_mutation (fn : UserFn) (h : List IncomingOp)
    (s' : RunState)
    (hl : runLoop (initState fn h) h = .ok s') :
    s'.opStack = h ∧ runFn fn s'.opStack = runFn fn h := by
  have hs : s'.opStack = h := runLoop_opStack h (initState fn h) s' hl
  exact ⟨hs, by rw [hs]⟩

theorem claim8_witness :
    sAfterData.opStack = histData ∧
    runFn fnAB sAfterData.opStack = runFn fnAB histData :=
  claim8_idempotent_no_mutation fnAB histData sAfterData rfl

/-- C4: when no thunk is selected, the discovery outcome lists the steps of
the final active context, in registration order: the entry at index `i` is
the projection of the context's `i`-th step and its position path is the
last history record's position path (empty for an empty history) followed by
`i` — in particular, with empty history the context is the root list and the
paths are `[0], [1], ...`.  Moreover (for histories without duplicate
position paths, replayed against freshly registered ops) no history record
matches any of the reported paths: the listed steps are unmatched. -/
theorem claim4_discovery (fn : UserFn) (h : List IncomingOp) (s : RunState)
    (hu : hasUsedTools fn = true)
    (hwf : ∀ u ∈ fn.syncOps, Fresh u)
    (hl : runLoop (initState fn h) h = .ok s)
    (hn : s.userFnToRun = none)
    (hnd : (h.map (·.opPosition)).Nodup) :
    runFn fn h = .ok (.multiDiscovery
      (discoverOps (lastPathOf h) 0 (childrenAt s.allFoundOps s.activePath)), []) ∧
    (∀ (i : Nat) (t : TickOp),
      (childrenAt s.allFoundOps s.activePath)[i]? = some t →
      (discoverOps (lastPathOf h) 0 (childrenAt s.allFoundOps s.activePath))[i]? =
        some
          { op := t.op, run := t.fn.isSome, id := t.id, name := t.name,
            opts := t.opts, opPosition := lastPathOf h ++ [i] }) ∧
    (∀ r ∈ h, ∀ j : Nat, r.opPosition ≠ lastPathOf h ++ [j]) ∧
    (h = [] → s.activePath = [] ∧ s.allFoundOps = fn.syncOps ∧ lastPathOf h = []) := by
  have hstack : s.opStack = h := runLoop_opStack h (initState fn h) s hl
  refine ⟨?_, ?_, ?_, ?_⟩
  · rw [runFn_discovery fn h s hu hl hn, hstack]
  · intro i t ht
    have := discoverOps_getElem (childrenAt s.allFoundOps s.activePath)
      (lastPathOf h) 0 i t ht
    rw [Nat.zero_add] at this
    exact this
  · exact loop_unmatched h (initState fn h) [] s
      (fun u hu' => Fresh.toWFOp u (hwf u hu'))
      (DeepOK_of_fresh [] fn.syncOps hwf)
      (by simpa using hnd) hl hn
  · intro hemp
    subst hemp
    simp only [runLoop, Except.ok.injEq] at hl
    rw [← hl]
    exact ⟨rfl, rfl, rfl⟩

theorem claim4_witness :
    runFn fnAB histData = .ok (.multiDiscovery
      (discoverOps (lastPathOf histData) 0
        (childrenAt sAfterData.allFoundOps sAfterData.activePath)), []) ∧
    (discoverOps (lastPathOf histData) 0
        (childrenAt sAfterData.allFoundOps sAfterData.activePath))[0]? =
      some
        { op := "Step", run := true, id := "b", name := "b",
          opts := .null, opPosition := [0, 0] } ∧
    (∀ r ∈ histData, ∀ j : Nat, r.opPosition ≠ lastPathOf histData ++ [j]) := by
  have hwf : ∀ u ∈ fnAB.syncOps, Fresh u := by
    intro u hu
    have hA : u = opA := by simpa [fnAB] using hu
    subst hA
    rw [Fresh_def]
    refine ⟨rfl, ?_⟩
    intro c hc
    have hB : c = opB := by simpa [opA, TickOp.children] using hc
    subst hB
    rw [Fresh_def]
    refine ⟨rfl, ?_⟩
    intro d hd
    simp [opB, TickOp.children] at hd
  have hmain := claim4_discovery fnAB histData sAfterData rfl hwf rfl rfl
    (by simp [histData])
  exact ⟨hmain.1, hmain.2.1 0 opB rfl, hmain.2.2.1⟩
